import Mathlib

/-!
Shallow embedding of the `bst` Go package: a binary search tree over
byte-string keys (modelled as `List Nat`), each key holding an ordered list
of byte-string values.  The sequential semantics of each operation is
translated directly from the source; atomic CAS always succeeds in the
single-threaded model, and the per-key mutex is dropped (it guards no data
visible to sequential semantics).
-/

namespace BstSpec

/-- Embedding of Go `bytes.Compare`: byte-lexicographic three-way comparison,
with a strict prefix comparing less. -/
def compareBytes : List Nat → List Nat → Ordering
  | [], [] => Ordering.eq
  | [], _ :: _ => Ordering.lt
  | _ :: _, [] => Ordering.gt
  | a :: as, b :: bs =>
    if a < b then Ordering.lt
    else if b < a then Ordering.gt
    else compareBytes as bs

/-- Strict byte-lexicographic order on keys, as decided by `compareBytes`. -/
def keyLt (a b : List Nat) : Prop := compareBytes a b = Ordering.lt

instance (a b : List Nat) : Decidable (keyLt a b) := by
  unfold keyLt; infer_instance

theorem compareBytes_self (a : List Nat) : compareBytes a a = Ordering.eq := by
  induction a with
  | nil => rfl
  | cons x xs ih => simp [compareBytes, ih]

theorem compareBytes_eq_iff {a b : List Nat} :
    compareBytes a b = Ordering.eq ↔ a = b := by
  constructor
  · intro h
    induction a generalizing b with
    | nil => cases b with
      | nil => rfl
      | cons y ys => simp [compareBytes] at h
    | cons x xs ih =>
      cases b with
      | nil => simp [compareBytes] at h
      | cons y ys =>
        simp only [compareBytes] at h
        split at h
        · exact absurd h (by simp)
        · split at h
          · exact absurd h (by simp)
          · have hxy : x = y := by omega
            have := ih h
            simp [hxy, this]
  · intro h; subst h; exact compareBytes_self a

theorem compareBytes_swap (a b : List Nat) :
    compareBytes b a = (compareBytes a b).swap := by
  induction a generalizing b with
  | nil => cases b <;> rfl
  | cons x xs ih =>
    cases b with
    | nil => rfl
    | cons y ys =>
      simp only [compareBytes]
      rcases Nat.lt_trichotomy x y with h | h | h
      · simp [h, Nat.not_lt_of_lt h, Ordering.swap]
      · simp [h, Nat.lt_irrefl, ih ys]
      · simp [h, Nat.not_lt_of_lt h, Ordering.swap]

theorem compareBytes_gt_iff {a b : List Nat} :
    compareBytes a b = Ordering.gt ↔ compareBytes b a = Ordering.lt := by
  rw [compareBytes_swap a b]
  cases compareBytes a b <;> simp [Ordering.swap]

theorem keyLt_trans {a b c : List Nat} (hab : keyLt a b) (hbc : keyLt b c) :
    keyLt a c := by
  unfold keyLt at *
  induction a generalizing b c with
  | nil =>
    cases b with
    | nil => simp [compareBytes] at hab
    | cons y ys =>
      cases c with
      | nil => simp [compareBytes] at hbc
      | cons z zs => rfl
  | cons x xs ih =>
    cases b with
    | nil => simp [compareBytes] at hab
    | cons y ys =>
      cases c with
      | nil => simp [compareBytes] at hbc
      | cons z zs =>
        simp only [compareBytes] at hab hbc ⊢
        rcases Nat.lt_trichotomy x y with h1 | h1 | h1
        · rcases Nat.lt_trichotomy y z with h2 | h2 | h2
          · have : x < z := Nat.lt_trans h1 h2
            simp [this]
          · subst h2; simp [h1]
          · exfalso
            simp [Nat.not_lt_of_lt h2, h2] at hbc
        · subst h1
          simp [Nat.lt_irrefl] at hab
          rcases Nat.lt_trichotomy x z with h2 | h2 | h2
          · simp [h2]
          · subst h2
            simp [Nat.lt_irrefl] at hbc ⊢
            exact ih hab hbc
          · simp [Nat.not_lt_of_lt h2, h2] at hbc
        · exfalso
          simp [Nat.not_lt_of_lt h1, h1] at hab

theorem keyLt_irrefl (a : List Nat) : ¬ keyLt a a := by
  unfold keyLt
  simp [compareBytes_self]

theorem keyLt_asymm {a b : List Nat} (h : keyLt a b) : ¬ keyLt b a := by
  intro h'
  exact keyLt_irrefl a (keyLt_trans h h')

theorem keyLt_ne {a b : List Nat} (h : keyLt a b) : a ≠ b := by
  intro he; subst he; exact keyLt_irrefl a h

theorem keyLt_of_gt {a b : List Nat} (h : compareBytes a b = Ordering.gt) :
    keyLt b a := compareBytes_gt_iff.mp h

/-- Case analysis on a three-way comparison. -/
theorem compareBytes_cases (a b : List Nat) :
    compareBytes a b = Ordering.lt ∨ compareBytes a b = Ordering.eq ∨
      compareBytes a b = Ordering.gt := by
  cases compareBytes a b <;> simp

/-- Embedding of the Go `Key` struct: the sort key `K` and its ordered value
list `Values`.  The `Latch` mutex carries no sequential data and is dropped. -/
structure Key where
  k : List Nat
  values : List (List Nat)
deriving DecidableEq

/-- Embedding of the Go `Node`/`BST` structs: a node owns one `Key` and two
nullable children; `nil` is the null pointer. -/
inductive Tree where
  | nil : Tree
  | node (key : Key) (left : Tree) (right : Tree) : Tree
deriving DecidableEq

/-- Embedding of `BST.put` (with `BST.Put`'s empty-slot CAS folded in as the
`nil` case, which is what an always-successful sequential CAS does): descend
by comparison, install a fresh node in the first empty slot, or append the
value to an existing equal key. -/
def put : Tree → List Nat → List Nat → Tree
  | Tree.nil, key, value => Tree.node (Key.mk key [value]) Tree.nil Tree.nil
  | Tree.node k l r, key, value =>
    if compareBytes key k.k = Ordering.lt then
      Tree.node k (put l key value) r
    else if compareBytes key k.k = Ordering.gt then
      Tree.node k l (put r key value)
    else
      Tree.node (Key.mk k.k (k.values ++ [value])) l r

/-- Embedding of `BST.get`/`BST.Get`: binary search descent returning the
matching `Key` record, or `none` for "not found". -/
def get : Tree → List Nat → Option Key
  | Tree.nil, _ => none
  | Tree.node k l r, key =>
    if compareBytes key k.k = Ordering.lt then get l key
    else if compareBytes key k.k = Ordering.gt then get r key
    else some k

/-- Embedding of the splice inside `BST.remove`: drop the first element of the
value list that compares byte-equal to `value` (the Go loop breaks after the
first hit). -/
def removeFirstValue : List (List Nat) → List Nat → List (List Nat)
  | [], _ => []
  | v :: rest, value =>
    if compareBytes v value = Ordering.eq then rest
    else v :: removeFirstValue rest value

/-- Embedding of `BST.remove`/`BST.Remove`: find the key by comparison descent
and splice the first matching value out of its list; no-op on a missing key. -/
def remove : Tree → List Nat → List Nat → Tree
  | Tree.nil, _, _ => Tree.nil
  | Tree.node k l r, key, value =>
    if compareBytes key k.k = Ordering.lt then
      Tree.node k (remove l key value) r
    else if compareBytes key k.k = Ordering.gt then
      Tree.node k l (remove r key value)
    else
      Tree.node (Key.mk k.k (removeFirstValue k.values value)) l r

/-- Embedding of `BST.minValueNode` applied to `Node{key := k, left := l}`:
walk `left` links to the leftmost node and return its `Key`. -/
def minKey : Key → Tree → Key
  | k, Tree.nil => k
  | _, Tree.node k' l' _ => minKey k' l'

/-- Embedding of `BST.delete`/`BST.Delete`: classic recursive BST deletion;
a node missing a child is replaced by the other child, a two-child node has
its `Key` overwritten by the in-order successor's `Key` and the successor
deleted from the right subtree. -/
def delete : Tree → List Nat → Tree
  | Tree.nil, _ => Tree.nil
  | Tree.node k l r, key =>
    if compareBytes key k.k = Ordering.lt then
      Tree.node k (delete l key) r
    else if compareBytes key k.k = Ordering.gt then
      Tree.node k l (delete r key)
    else
      match l, r with
      | Tree.nil, _ => r
      | _, Tree.nil => l
      | _, Tree.node rk rl rr =>
        Tree.node (minKey rk rl) l (delete (Tree.node rk rl rr) (minKey rk rl).k)

/-- Embedding of `BST.rangeKeys`/`BST.Range`: in-order accumulation of the
keys inside `[start, stop]`, pruning subtrees that cannot qualify. -/
def rangeKeys : Tree → List Nat → List Nat → List Key
  | Tree.nil, _, _ => []
  | Tree.node k l r, start, stop =>
    (if compareBytes k.k start = Ordering.gt then rangeKeys l start stop else [])
    ++ (if compareBytes k.k start ≠ Ordering.lt ∧ compareBytes k.k stop ≠ Ordering.gt
        then [k] else [])
    ++ (if compareBytes k.k stop = Ordering.lt then rangeKeys r start stop else [])

/-- Embedding of `BST.greaterThan`/`BST.GreaterThan`: emit left subtree, the
node, then right subtree when the node qualifies, else only the right. -/
def greaterThan : Tree → List Nat → List Key
  | Tree.nil, _ => []
  | Tree.node k l r, key =>
    if compareBytes k.k key = Ordering.gt then
      greaterThan l key ++ [k] ++ greaterThan r key
    else
      greaterThan r key

/-- Embedding of `BST.greaterThanEq`/`BST.GreaterThanEq`: note the source
appends the node BEFORE recursing into its left subtree. -/
def greaterThanEq : Tree → List Nat → List Key
  | Tree.nil, _ => []
  | Tree.node k l r, key =>
    if compareBytes k.k key ≠ Ordering.lt then
      [k] ++ greaterThanEq l key ++ greaterThanEq r key
    else
      greaterThanEq r key

/-- Embedding of `BST.lessThan`/`BST.LessThan`: note the source appends the
node BEFORE recursing into its left subtree. -/
def lessThan : Tree → List Nat → List Key
  | Tree.nil, _ => []
  | Tree.node k l r, key =>
    if compareBytes k.k key = Ordering.lt then
      [k] ++ lessThan l key ++ lessThan r key
    else
      lessThan l key

/-- Embedding of `BST.lessThanEq`/`BST.LessThanEq`: note the source appends
the node BEFORE recursing into its left subtree. -/
def lessThanEq : Tree → List Nat → List Key
  | Tree.nil, _ => []
  | Tree.node k l r, key =>
    if compareBytes k.k key ≠ Ordering.gt then
      [k] ++ lessThanEq l key ++ lessThanEq r key
    else
      lessThanEq l key

/-- Embedding of `BST.nGet`/`BST.NGet`: in-order emission of every key whose
comparison with `key` is not `eq`. -/
def nGet : Tree → List Nat → List Key
  | Tree.nil, _ => []
  | Tree.node k l r, key =>
    nGet l key
    ++ (if compareBytes k.k key ≠ Ordering.eq then [k] else [])
    ++ nGet r key

/-- Embedding of the boolean-returning Go `BST.put` helper for a non-empty
root, with the sequential semantics of CAS (it always succeeds).  The second
component is the Go return value. -/
def putB : Tree → List Nat → List Nat → Tree × Bool
  | Tree.nil, _, _ => (Tree.nil, true)
  | Tree.node k l r, key, value =>
    if compareBytes key k.k = Ordering.lt then
      match l with
      | Tree.nil => (Tree.node k (Tree.node (Key.mk key [value]) Tree.nil Tree.nil) r, true)
      | Tree.node lk ll lr =>
        let p := putB (Tree.node lk ll lr) key value
        (Tree.node k p.1 r, p.2)
    else if compareBytes key k.k = Ordering.gt then
      match r with
      | Tree.nil => (Tree.node k l (Tree.node (Key.mk key [value]) Tree.nil Tree.nil), true)
      | Tree.node rk rl rr =>
        let p := putB (Tree.node rk rl rr) key value
        (Tree.node k l p.1, p.2)
    else
      (Tree.node (Key.mk k.k (k.values ++ [value])) l r, true)

/-- Embedding of the retry loop in `BST.Put`, with explicit fuel: an empty
root is filled by the root CAS, otherwise the helper runs and the loop
repeats only when it reports failure. -/
def putLoop : Nat → Tree → List Nat → List Nat → Option Tree
  | 0, _, _, _ => none
  | _ + 1, Tree.nil, key, value =>
    some (Tree.node (Key.mk key [value]) Tree.nil Tree.nil)
  | fuel + 1, Tree.node k l r, key, value =>
    let p := putB (Tree.node k l r) key value
    if p.2 then some p.1 else putLoop fuel p.1 key value

/-- In-order traversal of the tree's `Key` records (left, self, right). -/
def inorder : Tree → List Key
  | Tree.nil => []
  | Tree.node k l r => inorder l ++ [k] ++ inorder r

/-- The sort keys of the tree, in in-order traversal order. -/
def kList (t : Tree) : List (List Nat) := (inorder t).map Key.k

/-- Executable check of the BST structural invariant of spec section 3: at
every node, all left-subtree keys compare less and all right-subtree keys
compare greater, byte-lexicographically. -/
def isBSTb : Tree → Bool
  | Tree.nil => true
  | Tree.node k l r =>
    (kList l).all (fun x => decide (keyLt x k.k))
    && (kList r).all (fun x => decide (keyLt k.k x))
    && isBSTb l && isBSTb r

/-- The BST structural invariant as a proposition. -/
def IsBST (t : Tree) : Prop := isBSTb t = true

instance (t : Tree) : Decidable (IsBST t) := by
  unfold IsBST; infer_instance

theorem isBST_nil : IsBST Tree.nil := rfl

theorem isBST_node_iff {k : Key} {l r : Tree} :
    IsBST (Tree.node k l r) ↔
      (∀ x ∈ kList l, keyLt x k.k) ∧ (∀ x ∈ kList r, keyLt k.k x) ∧
        IsBST l ∧ IsBST r := by
  simp [IsBST, isBSTb, List.all_eq_true, and_assoc]

/-- The value list carried by an optional `Key` lookup result. -/
def optValues : Option Key → List (List Nat)
  | none => []
  | some ky => ky.values

theorem kList_nil : kList Tree.nil = [] := rfl

theorem kList_node {k : Key} {l r : Tree} :
    kList (Tree.node k l r) = kList l ++ k.k :: kList r := by
  simp [kList, inorder]

theorem put_node_lt {k : Key} {l r : Tree} {key : List Nat} (v : List Nat)
    (hc : compareBytes key k.k = Ordering.lt) :
    put (Tree.node k l r) key v = Tree.node k (put l key v) r := by
  simp [put, hc]

theorem put_node_gt {k : Key} {l r : Tree} {key : List Nat} (v : List Nat)
    (hc : compareBytes key k.k = Ordering.gt) :
    put (Tree.node k l r) key v = Tree.node k l (put r key v) := by
  simp [put, hc]

theorem put_node_eq {k : Key} {l r : Tree} {key : List Nat} (v : List Nat)
    (hc : compareBytes key k.k = Ordering.eq) :
    put (Tree.node k l r) key v =
      Tree.node (Key.mk k.k (k.values ++ [v])) l r := by
  simp [put, hc]

theorem get_node_lt {k : Key} {l r : Tree} {key : List Nat}
    (hc : compareBytes key k.k = Ordering.lt) :
    get (Tree.node k l r) key = get l key := by
  simp [get, hc]

theorem get_node_gt {k : Key} {l r : Tree} {key : List Nat}
    (hc : compareBytes key k.k = Ordering.gt) :
    get (Tree.node k l r) key = get r key := by
  simp [get, hc]

theorem get_node_eq {k : Key} {l r : Tree} {key : List Nat}
    (hc : compareBytes key k.k = Ordering.eq) :
    get (Tree.node k l r) key = some k := by
  simp [get, hc]

theorem remove_node_lt {k : Key} {l r : Tree} {key v : List Nat}
    (hc : compareBytes key k.k = Ordering.lt) :
    remove (Tree.node k l r) key v = Tree.node k (remove l key v) r := by
  simp [remove, hc]

theorem remove_node_gt {k : Key} {l r : Tree} {key v : List Nat}
    (hc : compareBytes key k.k = Ordering.gt) :
    remove (Tree.node k l r) key v = Tree.node k l (remove r key v) := by
  simp [remove, hc]

theorem remove_node_eq {k : Key} {l r : Tree} {key v : List Nat}
    (hc : compareBytes key k.k = Ordering.eq) :
    remove (Tree.node k l r) key v =
      Tree.node (Key.mk k.k (removeFirstValue k.values v)) l r := by
  simp [remove, hc]

theorem delete_node_lt {k : Key} {l r : Tree} {key : List Nat}
    (hc : compareBytes key k.k = Ordering.lt) :
    delete (Tree.node k l r) key = Tree.node k (delete l key) r := by
  conv_lhs => rw [delete.eq_def]
  simp [hc]

theorem delete_node_gt {k : Key} {l r : Tree} {key : List Nat}
    (hc : compareBytes key k.k = Ordering.gt) :
    delete (Tree.node k l r) key = Tree.node k l (delete r key) := by
  conv_lhs => rw [delete.eq_def]
  simp [hc]

theorem delete_node_eq_left_nil {k : Key} {r : Tree} {key : List Nat}
    (hc : compareBytes key k.k = Ordering.eq) :
    delete (Tree.node k Tree.nil r) key = r := by
  conv_lhs => rw [delete.eq_def]
  simp [hc]

theorem delete_node_eq_right_nil {k lk : Key} {ll lr : Tree} {key : List Nat}
    (hc : compareBytes key k.k = Ordering.eq) :
    delete (Tree.node k (Tree.node lk ll lr) Tree.nil) key =
      Tree.node lk ll lr := by
  conv_lhs => rw [delete.eq_def]
  simp [hc]

theorem delete_node_eq_two {k lk rk : Key} {ll lr rl rr : Tree}
    {key : List Nat} (hc : compareBytes key k.k = Ordering.eq) :
    delete (Tree.node k (Tree.node lk ll lr) (Tree.node rk rl rr)) key =
      Tree.node (minKey rk rl) (Tree.node lk ll lr)
        (delete (Tree.node rk rl rr) (minKey rk rl).k) := by
  conv_lhs => rw [delete.eq_def]
  simp [hc]

theorem mem_kList_put {x key v : List Nat} {t : Tree} :
    x ∈ kList (put t key v) → x = key ∨ x ∈ kList t := by
  induction t with
  | nil =>
    intro h
    simp only [put, kList_node, kList_nil, List.nil_append, List.mem_cons,
      List.not_mem_nil, or_false] at h
    exact Or.inl h
  | node k l r ihl ihr =>
    intro h
    cases hc : compareBytes key k.k with
    | lt =>
      rw [put_node_lt v hc, kList_node] at h
      rw [kList_node]
      simp only [List.mem_append, List.mem_cons] at h ⊢
      rcases h with h | h | h
      · rcases ihl h with h' | h'
        · exact Or.inl h'
        · exact Or.inr (Or.inl h')
      · exact Or.inr (Or.inr (Or.inl h))
      · exact Or.inr (Or.inr (Or.inr h))
    | eq =>
      rw [put_node_eq v hc, kList_node] at h
      rw [kList_node]
      exact Or.inr (by simpa using h)
    | gt =>
      rw [put_node_gt v hc, kList_node] at h
      rw [kList_node]
      simp only [List.mem_append, List.mem_cons] at h ⊢
      rcases h with h | h | h
      · exact Or.inr (Or.inl h)
      · exact Or.inr (Or.inr (Or.inl h))
      · rcases ihr h with h' | h'
        · exact Or.inl h'
        · exact Or.inr (Or.inr (Or.inr h'))

theorem kList_remove (t : Tree) (key v : List Nat) :
    kList (remove t key v) = kList t := by
  induction t with
  | nil => rfl
  | node k l r ihl ihr =>
    cases hc : compareBytes key k.k with
    | lt => rw [remove_node_lt hc, kList_node, kList_node, ihl]
    | eq => rw [remove_node_eq hc, kList_node, kList_node]
    | gt => rw [remove_node_gt hc, kList_node, kList_node, ihr]

theorem get_nil (key : List Nat) : get Tree.nil key = none := rfl

/-- `put` followed by `get` of the same key finds the key with the new value
appended to whatever values it had before. -/
theorem get_put_self (t : Tree) (key v : List Nat) :
    get (put t key v) key = some (Key.mk key (optValues (get t key) ++ [v])) := by
  induction t with
  | nil => simp [put, get, compareBytes_self, optValues]
  | node k l r ihl ihr =>
    cases hc : compareBytes key k.k with
    | lt => rw [put_node_lt v hc, get_node_lt hc, get_node_lt hc, ihl]
    | eq =>
      have hk : key = k.k := compareBytes_eq_iff.mp hc
      rw [put_node_eq v hc, get_node_eq hc, get_node_eq (k := Key.mk k.k (k.values ++ [v])) hc]
      simp [optValues, hk]
    | gt => rw [put_node_gt v hc, get_node_gt hc, get_node_gt hc, ihr]

/-- `put` leaves lookups of every other key unchanged. -/
theorem get_put_other {key' key : List Nat} (hne : key' ≠ key) (t : Tree)
    (v : List Nat) : get (put t key v) key' = get t key' := by
  induction t with
  | nil =>
    have hne' : compareBytes key' key ≠ Ordering.eq := fun h =>
      hne (compareBytes_eq_iff.mp h)
    cases hc : compareBytes key' key with
    | lt => simp [put, get, hc]
    | eq => exact absurd hc hne'
    | gt => simp [put, get, hc]
  | node k l r ihl ihr =>
    cases hc : compareBytes key k.k with
    | lt =>
      rw [put_node_lt v hc]
      cases hc' : compareBytes key' k.k with
      | lt => rw [get_node_lt hc', get_node_lt hc', ihl]
      | eq => rw [get_node_eq hc', get_node_eq hc']
      | gt => rw [get_node_gt hc', get_node_gt hc']
    | eq =>
      have hk : key = k.k := compareBytes_eq_iff.mp hc
      rw [put_node_eq v hc]
      cases hc' : compareBytes key' k.k with
      | lt => rw [get_node_lt hc']; simp [get, hc']
      | eq => exact absurd ((compareBytes_eq_iff.mp hc').trans hk.symm) hne
      | gt => rw [get_node_gt hc']; simp [get, hc']
    | gt =>
      rw [put_node_gt v hc]
      cases hc' : compareBytes key' k.k with
      | lt => rw [get_node_lt hc', get_node_lt hc']
      | eq => rw [get_node_eq hc', get_node_eq hc']
      | gt => rw [get_node_gt hc', get_node_gt hc', ihr]

/-- `remove` rewrites the matching key's value list through
`removeFirstValue` and nothing else, as seen by `get` of that key. -/
theorem get_remove_self (t : Tree) (key v : List Nat) :
    get (remove t key v) key =
      (get t key).map (fun ky => Key.mk ky.k (removeFirstValue ky.values v)) := by
  induction t with
  | nil => simp [remove, get]
  | node k l r ihl ihr =>
    cases hc : compareBytes key k.k with
    | lt => rw [remove_node_lt hc, get_node_lt hc, get_node_lt hc, ihl]
    | eq =>
      rw [remove_node_eq hc, get_node_eq (k := k) hc]
      simp [get, hc]
    | gt => rw [remove_node_gt hc, get_node_gt hc, get_node_gt hc, ihr]

/-- `remove` leaves lookups of every other key unchanged. -/
theorem get_remove_other {key' key : List Nat} (hne : key' ≠ key) (t : Tree)
    (v : List Nat) : get (remove t key v) key' = get t key' := by
  induction t with
  | nil => simp [remove, get]
  | node k l r ihl ihr =>
    cases hc : compareBytes key k.k with
    | lt =>
      rw [remove_node_lt hc]
      cases hc' : compareBytes key' k.k with
      | lt => rw [get_node_lt hc', get_node_lt hc', ihl]
      | eq => rw [get_node_eq hc', get_node_eq hc']
      | gt => rw [get_node_gt hc', get_node_gt hc']
    | eq =>
      have hk : key = k.k := compareBytes_eq_iff.mp hc
      rw [remove_node_eq hc]
      cases hc' : compareBytes key' k.k with
      | lt => rw [get_node_lt hc']; simp [get, hc']
      | eq => exact absurd ((compareBytes_eq_iff.mp hc').trans hk.symm) hne
      | gt => rw [get_node_gt hc']; simp [get, hc']
    | gt =>
      rw [remove_node_gt hc]
      cases hc' : compareBytes key' k.k with
      | lt => rw [get_node_lt hc', get_node_lt hc']
      | eq => rw [get_node_eq hc', get_node_eq hc']
      | gt => rw [get_node_gt hc', get_node_gt hc', ihr]

/-- Searching for a key that is nowhere in the tree returns `none`. -/
theorem get_none_of_not_mem {key : List Nat} {t : Tree}
    (h : key ∉ kList t) : get t key = none := by
  induction t with
  | nil => rfl
  | node k l r ihl ihr =>
    rw [kList_node] at h
    simp only [List.mem_append, List.mem_cons, not_or] at h
    obtain ⟨hl, hk, hr⟩ := h
    cases hc : compareBytes key k.k with
    | lt => rw [get_node_lt hc, ihl hl]
    | eq => exact absurd (compareBytes_eq_iff.mp hc) hk
    | gt => rw [get_node_gt hc, ihr hr]

/-- Deleting a key that is nowhere in the tree returns the tree unchanged. -/
theorem delete_of_not_mem {key : List Nat} {t : Tree}
    (h : key ∉ kList t) : delete t key = t := by
  induction t with
  | nil => rfl
  | node k l r ihl ihr =>
    rw [kList_node] at h
    simp only [List.mem_append, List.mem_cons, not_or] at h
    obtain ⟨hl, hk, hr⟩ := h
    cases hc : compareBytes key k.k with
    | lt => rw [delete_node_lt hc, ihl hl]
    | eq => exact absurd (compareBytes_eq_iff.mp hc) hk
    | gt => rw [delete_node_gt hc, ihr hr]

/-- Removing a value under a key that is nowhere in the tree returns the tree
unchanged. -/
theorem remove_of_not_mem {key : List Nat} {t : Tree} (v : List Nat)
    (h : key ∉ kList t) : remove t key v = t := by
  induction t with
  | nil => rfl
  | node k l r ihl ihr =>
    rw [kList_node] at h
    simp only [List.mem_append, List.mem_cons, not_or] at h
    obtain ⟨hl, hk, hr⟩ := h
    cases hc : compareBytes key k.k with
    | lt => rw [remove_node_lt hc, ihl hl]
    | eq => exact absurd (compareBytes_eq_iff.mp hc) hk
    | gt => rw [remove_node_gt hc, ihr hr]

/-- The splice is the identity when the value does not occur. -/
theorem removeFirstValue_of_not_mem {v : List Nat} {vs : List (List Nat)}
    (h : v ∉ vs) : removeFirstValue vs v = vs := by
  induction vs with
  | nil => rfl
  | cons u rest ih =>
    simp only [List.mem_cons, not_or] at h
    have hne : compareBytes u v ≠ Ordering.eq := fun he =>
      h.1 ((compareBytes_eq_iff.mp he).symm)
    simp [removeFirstValue, hne, ih h.2]

/-- The splice drops exactly the first occurrence and keeps the remainder in
order. -/
theorem removeFirstValue_append {v : List Nat} {xs : List (List Nat)}
    (ys : List (List Nat)) (h : v ∉ xs) :
    removeFirstValue (xs ++ v :: ys) v = xs ++ ys := by
  induction xs with
  | nil => simp [removeFirstValue, compareBytes_self]
  | cons u rest ih =>
    simp only [List.mem_cons, not_or] at h
    have hne : compareBytes u v ≠ Ordering.eq := fun he =>
      h.1 ((compareBytes_eq_iff.mp he).symm)
    simp [removeFirstValue, hne, ih h.2]

/-- Removing a value absent from the matched key's value list returns the
tree unchanged. -/
theorem remove_of_value_not_mem {t : Tree} {key v : List Nat} {ky : Key}
    (hget : get t key = some ky) (hv : v ∉ ky.values) :
    remove t key v = t := by
  induction t with
  | nil => simp [get] at hget
  | node k l r ihl ihr =>
    cases hc : compareBytes key k.k with
    | lt =>
      rw [get_node_lt hc] at hget
      rw [remove_node_lt hc, ihl hget]
    | eq =>
      rw [get_node_eq hc] at hget
      cases hget
      rw [remove_node_eq hc, removeFirstValue_of_not_mem hv]
    | gt =>
      rw [get_node_gt hc] at hget
      rw [remove_node_gt hc, ihr hget]

instance : IsTrans (List Nat) keyLt := ⟨fun _ _ _ => keyLt_trans⟩

instance : IsIrrefl (List Nat) keyLt := ⟨keyLt_irrefl⟩

/-- The structural BST invariant is equivalent to strict sortedness of the
in-order key sequence. -/
theorem isBST_iff_sorted {t : Tree} :
    IsBST t ↔ List.Sorted keyLt (kList t) := by
  induction t with
  | nil => simp [isBST_nil, kList_nil, List.Sorted]
  | node k l r ihl ihr =>
    rw [isBST_node_iff, kList_node, ihl, ihr]
    unfold List.Sorted
    rw [List.pairwise_append, List.pairwise_cons]
    constructor
    · rintro ⟨hl, hr, sl, sr⟩
      refine ⟨sl, ⟨hr, sr⟩, ?_⟩
      intro a ha b hb
      rcases List.mem_cons.mp hb with hb | hb
      · exact hb ▸ hl a ha
      · exact keyLt_trans (hl a ha) (hr b hb)
    · rintro ⟨sl, ⟨hr, sr⟩, hcross⟩
      exact ⟨fun x hx => hcross x hx k.k (List.mem_cons_self _ _),
        hr, sl, sr⟩

theorem isBST_sorted {t : Tree} (h : IsBST t) :
    List.Sorted keyLt (kList t) := isBST_iff_sorted.mp h

/-- A sorted in-order key sequence has no duplicate keys. -/
theorem isBST_nodup {t : Tree} (h : IsBST t) : (kList t).Nodup :=
  (isBST_sorted h).nodup

/-- Insertion preserves the BST structural invariant. -/
theorem put_isBST {t : Tree} (key v : List Nat) (h : IsBST t) :
    IsBST (put t key v) := by
  induction t with
  | nil =>
    rw [show put Tree.nil key v =
      Tree.node (Key.mk key [v]) Tree.nil Tree.nil from rfl, isBST_node_iff]
    simp [kList_nil, isBST_nil]
  | node k l r ihl ihr =>
    obtain ⟨hl, hr, bl, br⟩ := isBST_node_iff.mp h
    cases hc : compareBytes key k.k with
    | lt =>
      rw [put_node_lt v hc, isBST_node_iff]
      refine ⟨?_, hr, ihl bl, br⟩
      intro x hx
      rcases mem_kList_put hx with hx' | hx'
      · exact hx' ▸ hc
      · exact hl x hx'
    | eq =>
      rw [put_node_eq v hc, isBST_node_iff]
      exact ⟨hl, hr, bl, br⟩
    | gt =>
      rw [put_node_gt v hc, isBST_node_iff]
      refine ⟨hl, ?_, bl, ihr br⟩
      intro x hx
      rcases mem_kList_put hx with hx' | hx'
      · exact hx' ▸ keyLt_of_gt hc
      · exact hr x hx'

/-- Value removal preserves the BST structural invariant. -/
theorem remove_isBST {t : Tree} (key v : List Nat) (h : IsBST t) :
    IsBST (remove t key v) := by
  rw [isBST_iff_sorted, kList_remove, ← isBST_iff_sorted]
  exact h

/-- The in-order traversal of a node starts with the key that
`minValueNode` finds by walking the left spine. -/
theorem inorder_node_head (k : Key) (l r : Tree) :
    ∃ rest, inorder (Tree.node k l r) = minKey k l :: rest := by
  induction l generalizing k r with
  | nil => exact ⟨inorder r, by simp [inorder, minKey]⟩
  | node k' l' r' ihl ihr =>
    obtain ⟨rest', hrest'⟩ := ihl (k := k') (r := r')
    refine ⟨rest' ++ k :: inorder r, ?_⟩
    rw [show minKey k (Tree.node k' l' r') = minKey k' l' from rfl]
    simp only [inorder] at hrest' ⊢
    rw [hrest']
    simp

theorem inorder_node {k : Key} {l r : Tree} :
    inorder (Tree.node k l r) = inorder l ++ [k] ++ inorder r := by
  rw [inorder]

/-- Structural deletion, seen through the in-order traversal: exactly the
`Key` records carrying the deleted key disappear; all others survive in
order, with identical record contents. -/
theorem inorder_delete {t : Tree} (key : List Nat) (h : IsBST t) :
    inorder (delete t key) =
      (inorder t).filter (fun ky => decide (ky.k ≠ key)) := by
  induction t generalizing key with
  | nil => rfl
  | node k l r ihl ihr =>
    obtain ⟨hl, hr, bl, br⟩ := isBST_node_iff.mp h
    have hkeepr : ∀ ky ∈ inorder r, keyLt k.k ky.k := by
      intro ky hky
      exact hr ky.k (List.mem_map_of_mem Key.k hky)
    have hkeepl : ∀ ky ∈ inorder l, keyLt ky.k k.k := by
      intro ky hky
      exact hl ky.k (List.mem_map_of_mem Key.k hky)
    cases hc : compareBytes key k.k with
    | lt =>
      rw [delete_node_lt hc, inorder_node]
      conv_rhs => rw [inorder_node]
      simp only [List.filter_append]
      rw [ihl key bl]
      have h1 : List.filter (fun ky => decide (ky.k ≠ key)) [k] = [k] := by
        simp [(keyLt_ne hc).symm]
      have h2 : (inorder r).filter (fun ky => decide (ky.k ≠ key)) = inorder r := by
        refine List.filter_eq_self.mpr ?_
        intro ky hky
        have : keyLt key ky.k := keyLt_trans hc (hkeepr ky hky)
        simp [(keyLt_ne this).symm]
      rw [h1, h2]
    | gt =>
      rw [delete_node_gt hc, inorder_node]
      conv_rhs => rw [inorder_node]
      simp only [List.filter_append]
      rw [ihr key br]
      have hkk : keyLt k.k key := keyLt_of_gt hc
      have h1 : List.filter (fun ky => decide (ky.k ≠ key)) [k] = [k] := by
        simp [keyLt_ne hkk]
      have h2 : (inorder l).filter (fun ky => decide (ky.k ≠ key)) = inorder l := by
        refine List.filter_eq_self.mpr ?_
        intro ky hky
        have : keyLt ky.k key := keyLt_trans (hkeepl ky hky) hkk
        simp [keyLt_ne this]
      rw [h1, h2]
    | eq =>
      have hk : key = k.k := compareBytes_eq_iff.mp hc
      have h1 : (inorder l).filter (fun ky => decide (ky.k ≠ key)) = inorder l := by
        refine List.filter_eq_self.mpr ?_
        intro ky hky
        have : ky.k ≠ key := hk ▸ keyLt_ne (hkeepl ky hky)
        simp [this]
      have h2 : (inorder r).filter (fun ky => decide (ky.k ≠ key)) = inorder r := by
        refine List.filter_eq_self.mpr ?_
        intro ky hky
        have : ky.k ≠ key := hk ▸ (keyLt_ne (hkeepr ky hky)).symm
        simp [this]
      have hmid : List.filter (fun ky => decide (ky.k ≠ key)) [k] = [] := by
        simp [hk]
      cases l with
      | nil =>
        rw [delete_node_eq_left_nil hc]
        conv_rhs => rw [inorder_node]
        simp only [List.filter_append, h2, hmid]
        simp [inorder]
      | node lk ll lr =>
        cases r with
        | nil =>
          rw [delete_node_eq_right_nil hc]
          conv_rhs => rw [inorder_node]
          simp only [List.filter_append, h1, hmid]
          simp [inorder]
        | node rk rl rr =>
          rw [delete_node_eq_two hc]
          obtain ⟨rest, hrest⟩ := inorder_node_head rk rl rr
          have hrestgt : ∀ ky ∈ rest, keyLt (minKey rk rl).k ky.k := by
            have hs := isBST_sorted br
            rw [kList, hrest] at hs
            simp only [List.map_cons, List.sorted_cons] at hs
            intro ky hky
            exact hs.1 ky.k (List.mem_map_of_mem Key.k hky)
          have hdelr : inorder (delete (Tree.node rk rl rr) (minKey rk rl).k)
              = rest := by
            rw [ihr (minKey rk rl).k br, hrest, List.filter_cons]
            have hhead : (decide ((minKey rk rl).k ≠ (minKey rk rl).k)) = false := by
              simp
            rw [hhead]
            simp only [Bool.false_eq_true, if_false]
            refine List.filter_eq_self.mpr ?_
            intro ky hky
            simp [(keyLt_ne (hrestgt ky hky)).symm]
          have hfr : (inorder (Tree.node rk rl rr)).filter
              (fun ky => decide (ky.k ≠ key)) = minKey rk rl :: rest := by
            rw [hrest]
            refine List.filter_eq_self.mpr ?_
            intro ky hky
            have hky' : ky ∈ inorder (Tree.node rk rl rr) := by
              rw [hrest]; exact hky
            have : ky.k ≠ key := hk ▸ (keyLt_ne (hkeepr ky hky')).symm
            simp [this]
          rw [inorder_node, hdelr]
          conv_rhs => rw [inorder_node]
          simp only [List.filter_append, h1, hmid, hfr]
          simp

/-- Structural deletion, seen through the key sequence. -/
theorem kList_delete {t : Tree} (key : List Nat) (h : IsBST t) :
    kList (delete t key) = (kList t).filter (fun x => decide (x ≠ key)) := by
  rw [kList, inorder_delete key h, kList]
  show List.map Key.k
      (List.filter ((fun x => decide (x ≠ key)) ∘ Key.k) (inorder t)) = _
  exact (List.filter_map Key.k (inorder t)).symm

/-- Structural deletion preserves the BST structural invariant. -/
theorem delete_isBST {t : Tree} (key : List Nat) (h : IsBST t) :
    IsBST (delete t key) := by
  rw [isBST_iff_sorted, kList_delete key h]
  exact (isBST_sorted h).filter _

theorem find?_append_left_none {p : Key → Bool} {l₂ : List Key}
    (l₁ : List Key) (h : ∀ x ∈ l₁, p x = false) :
    (l₁ ++ l₂).find? p = l₂.find? p := by
  induction l₁ with
  | nil => rfl
  | cons a l₁ ih =>
    have hpa : ¬ p a = true := by simp [h a (List.mem_cons_self a l₁)]
    rw [List.cons_append, List.find?_cons_of_neg _ hpa]
    exact ih fun x hx => h x (List.mem_cons_of_mem a hx)

theorem find?_append_right_none {p : Key → Bool} (l₁ l₂ : List Key)
    (h : ∀ x ∈ l₂, p x = false) :
    (l₁ ++ l₂).find? p = l₁.find? p := by
  induction l₁ with
  | nil =>
    simp only [List.nil_append, List.find?_nil]
    exact List.find?_eq_none.mpr (by simpa using h)
  | cons a l₁ ih =>
    cases hp : p a with
    | true =>
      rw [List.cons_append, List.find?_cons_of_pos _ hp,
        List.find?_cons_of_pos _ hp]
    | false =>
      have hp' : ¬ p a = true := by simp [hp]
      rw [List.cons_append, List.find?_cons_of_neg _ hp',
        List.find?_cons_of_neg _ hp', ih]

theorem find?_filter {p q : Key → Bool} (l : List Key)
    (h : ∀ x, p x = true → q x = true) :
    (l.filter q).find? p = l.find? p := by
  induction l with
  | nil => rfl
  | cons a l ih =>
    cases hq : q a with
    | true =>
      rw [List.filter_cons_of_pos hq]
      cases hp : p a with
      | true =>
        rw [List.find?_cons_of_pos _ hp, List.find?_cons_of_pos _ hp]
      | false =>
        have hp' : ¬ p a = true := by simp [hp]
        rw [List.find?_cons_of_neg _ hp', List.find?_cons_of_neg _ hp', ih]
    | false =>
      have hp : ¬ p a = true := by
        cases hpa : p a with
        | true => exact absurd (h a hpa) (by simp [hq])
        | false => simp
      have hq' : ¬ q a = true := by simp [hq]
      rw [List.filter_cons_of_neg hq', List.find?_cons_of_neg _ hp, ih]

/-- On a BST, the binary-search descent of `get` agrees with a linear search
of the in-order traversal for the first record whose key matches. -/
theorem get_eq_find {t : Tree} (key : List Nat) (h : IsBST t) :
    get t key = (inorder t).find? (fun ky => decide (ky.k = key)) := by
  induction t generalizing key with
  | nil => rfl
  | node k l r ihl ihr =>
    obtain ⟨hl, hr, bl, br⟩ := isBST_node_iff.mp h
    have hkeepr : ∀ ky ∈ inorder r, keyLt k.k ky.k := fun ky hky =>
      hr ky.k (List.mem_map_of_mem Key.k hky)
    have hkeepl : ∀ ky ∈ inorder l, keyLt ky.k k.k := fun ky hky =>
      hl ky.k (List.mem_map_of_mem Key.k hky)
    rw [inorder_node]
    cases hc : compareBytes key k.k with
    | lt =>
      rw [get_node_lt hc, ihl key bl, List.append_assoc,
        find?_append_right_none]
      intro x hx
      rcases List.mem_append.mp hx with hx | hx
      · have hx' : x = k := List.mem_singleton.mp hx
        subst hx'
        simp [(keyLt_ne hc).symm]
      · have : keyLt key x.k := keyLt_trans hc (hkeepr x hx)
        simp [(keyLt_ne this).symm]
    | eq =>
      have hk : key = k.k := compareBytes_eq_iff.mp hc
      rw [get_node_eq hc, List.append_assoc]
      rw [find?_append_left_none]
      · rw [List.singleton_append, List.find?_cons_of_pos]
        simp [hk]
      · intro x hx
        have : x.k ≠ key := hk ▸ keyLt_ne (hkeepl x hx)
        simp [this]
    | gt =>
      have hkk : keyLt k.k key := keyLt_of_gt hc
      rw [get_node_gt hc, ihr key br, List.append_assoc]
      rw [find?_append_left_none]
      · rw [List.singleton_append, List.find?_cons_of_neg]
        simp [keyLt_ne hkk]
      · intro x hx
        have : keyLt x.k key := keyLt_trans (hkeepl x hx) hkk
        simp [keyLt_ne this]

/-- On a BST, a present key is found by `get`, and the record returned is the
tree's record for that key. -/
theorem get_some_spec {t : Tree} {key : List Nat} (h : IsBST t)
    (hm : key ∈ kList t) :
    ∃ ky ∈ inorder t, get t key = some ky ∧ ky.k = key := by
  have : ((inorder t).find? (fun ky => decide (ky.k = key))).isSome := by
    rw [List.find?_isSome]
    obtain ⟨ky, hky, hpk⟩ := List.mem_map.mp hm
    exact ⟨ky, hky, by simp [hpk]⟩
  obtain ⟨ky, hfind⟩ := Option.isSome_iff_exists.mp this
  refine ⟨ky, List.mem_of_find?_eq_some hfind, ?_, ?_⟩
  · rw [get_eq_find key h, hfind]
  · simpa using List.find?_some hfind

/-- After deleting a key from a BST, that key can no longer be found. -/
theorem get_delete_self {t : Tree} (key : List Nat) (h : IsBST t) :
    get (delete t key) key = none := by
  refine get_none_of_not_mem ?_
  rw [kList_delete key h]
  intro hmem
  have := (List.mem_filter.mp hmem).2
  simp at this

/-- Deleting one key from a BST does not change the lookup of any other key,
record contents included. -/
theorem get_delete_other {t : Tree} {key' key : List Nat} (h : IsBST t)
    (hne : key' ≠ key) : get (delete t key) key' = get t key' := by
  rw [get_eq_find key' (delete_isBST key h), inorder_delete key h,
    find?_filter, ← get_eq_find key' h]
  intro x hx
  have : x.k = key' := by simpa using hx
  simp [this, hne]

/-- The tree with every value list blanked: equal results mean identical link
structure and identical sort keys at every node. -/
def stripValues : Tree → Tree
  | Tree.nil => Tree.nil
  | Tree.node k l r => Tree.node (Key.mk k.k []) (stripValues l) (stripValues r)

/-- Inserting a key that already exists in a BST rewires nothing: link
structure and every node key are untouched. -/
theorem stripValues_put {t : Tree} {key : List Nat} (v : List Nat)
    (h : IsBST t) (hm : key ∈ kList t) :
    stripValues (put t key v) = stripValues t := by
  induction t with
  | nil => simp [kList_nil] at hm
  | node k l r ihl ihr =>
    obtain ⟨hl, hr, bl, br⟩ := isBST_node_iff.mp h
    rw [kList_node] at hm
    cases hc : compareBytes key k.k with
    | lt =>
      have hml : key ∈ kList l := by
        rcases List.mem_append.mp hm with hm' | hm'
        · exact hm'
        · rcases List.mem_cons.mp hm' with hm'' | hm''
          · exact absurd hm'' (keyLt_ne hc)
          · exact absurd hc (keyLt_asymm (hr key hm''))
      rw [put_node_lt v hc]
      simp [stripValues, ihl bl hml]
    | eq => rw [put_node_eq v hc]; simp [stripValues]
    | gt =>
      have hmr : key ∈ kList r := by
        rcases List.mem_append.mp hm with hm' | hm'
        · exact absurd (keyLt_of_gt hc) (keyLt_asymm (hl key hm'))
        · rcases List.mem_cons.mp hm' with hm'' | hm''
          · exact absurd hm''.symm (keyLt_ne (keyLt_of_gt hc))
          · exact hm''
      rw [put_node_gt v hc]
      simp [stripValues, ihr br hmr]

/-- In the sequential model (every CAS succeeds) the Go `put` helper always
reports success. -/
theorem putB_true (t : Tree) (key v : List Nat) : (putB t key v).2 = true := by
  induction t with
  | nil => rfl
  | node k l r ihl ihr =>
    cases hc : compareBytes key k.k with
    | lt =>
      cases l with
      | nil =>
        conv_lhs => rw [putB.eq_def]
        simp [hc]
      | node lk ll lr =>
        conv_lhs => rw [putB.eq_def]
        simp only [hc, reduceIte]
        exact ihl
    | eq =>
      conv_lhs => rw [putB.eq_def]
      simp [hc]
    | gt =>
      cases r with
      | nil =>
        conv_lhs => rw [putB.eq_def]
        simp [hc]
      | node rk rl rr =>
        conv_lhs => rw [putB.eq_def]
        simp only [hc, reduceIte]
        exact ihr

/-- On a non-empty root the Go `put` helper builds exactly the tree of the
one-shot functional insertion. -/
theorem putB_fst {t : Tree} (key v : List Nat) (h : t ≠ Tree.nil) :
    (putB t key v).1 = put t key v := by
  induction t with
  | nil => exact absurd rfl h
  | node k l r ihl ihr =>
    cases hc : compareBytes key k.k with
    | lt =>
      cases l with
      | nil =>
        conv_lhs => rw [putB.eq_def]
        simp [put, hc]
      | node lk ll lr =>
        have hrec := ihl (by intro hx; cases hx)
        conv_lhs => rw [putB.eq_def]
        simp only [hc, reduceIte]
        rw [put_node_lt v hc, hrec]
    | eq =>
      conv_lhs => rw [putB.eq_def]
      simp [put, hc]
    | gt =>
      cases r with
      | nil =>
        conv_lhs => rw [putB.eq_def]
        simp [put, hc]
      | node rk rl rr =>
        have hrec := ihr (by intro hx; cases hx)
        conv_lhs => rw [putB.eq_def]
        simp only [hc, reduceIte]
        rw [put_node_gt v hc, hrec]
        simp

/-- The `Put` retry loop finishes within its first iteration in sequential
execution, returning the functional insertion result. -/
theorem putLoop_one (t : Tree) (key v : List Nat) :
    putLoop 1 t key v = some (put t key v) := by
  cases t with
  | nil => rfl
  | node k l r =>
    have ht : (putB (Tree.node k l r) key v).2 = true := putB_true _ key v
    have hf : (putB (Tree.node k l r) key v).1 = put (Tree.node k l r) key v :=
      putB_fst key v (by intro hx; cases hx)
    simp [putLoop, ht, hf]

/-- One mutating call of the Go API: `Put`, `Delete`, or `Remove`. -/
inductive Op where
  | putOp (key value : List Nat) : Op
  | deleteOp (key : List Nat) : Op
  | removeOp (key value : List Nat) : Op

/-- Apply one mutating call to a tree. -/
def applyOp : Tree → Op → Tree
  | t, Op.putOp key value => put t key value
  | t, Op.deleteOp key => delete t key
  | t, Op.removeOp key value => remove t key value

/-- Run a sequence of mutating calls against a fresh empty tree. -/
def applyOps (ops : List Op) : Tree := ops.foldl applyOp Tree.nil

theorem applyOp_isBST {t : Tree} (o : Op) (h : IsBST t) :
    IsBST (applyOp t o) := by
  cases o with
  | putOp key value => exact put_isBST key value h
  | deleteOp key => exact delete_isBST key h
  | removeOp key value => exact remove_isBST key value h

/-- Any sequence of mutating calls from the empty tree yields a BST. -/
theorem applyOps_isBST (ops : List Op) : IsBST (applyOps ops) := by
  suffices h : ∀ t, IsBST t → IsBST (List.foldl applyOp t ops) from
    h Tree.nil isBST_nil
  induction ops with
  | nil => exact fun t ht => ht
  | cons o ops ih =>
    intro t ht
    exact ih (applyOp t o) (applyOp_isBST o ht)

/-- `nGet` returns, in order, exactly the records whose key differs from the
argument. -/
theorem nGet_spec (t : Tree) (x : List Nat) :
    nGet t x = (inorder t).filter (fun ky => decide (ky.k ≠ x)) := by
  induction t with
  | nil => rfl
  | node k l r ihl ihr =>
    cases hc : compareBytes k.k x with
    | eq =>
      have hk : k.k = x := compareBytes_eq_iff.mp hc
      simp [nGet, hc, inorder_node, List.filter_append, ihl, ihr, hk,
        compareBytes_self]
    | lt =>
      have hk : k.k ≠ x := keyLt_ne hc
      simp [nGet, hc, inorder_node, List.filter_append, ihl, ihr, hk]
    | gt =>
      have hk : k.k ≠ x := (keyLt_ne (keyLt_of_gt hc)).symm
      simp [nGet, hc, inorder_node, List.filter_append, ihl, ihr, hk]

/-- On a BST, `greaterThan` returns, in order, exactly the records whose key
is strictly greater than the argument. -/
theorem greaterThan_spec {t : Tree} (x : List Nat) (h : IsBST t) :
    greaterThan t x = (inorder t).filter (fun ky => decide (keyLt x ky.k)) := by
  induction t with
  | nil => rfl
  | node k l r ihl ihr =>
    obtain ⟨hl, hr, bl, br⟩ := isBST_node_iff.mp h
    have hkeepl : ∀ ky ∈ inorder l, keyLt ky.k k.k := fun ky hky =>
      hl ky.k (List.mem_map_of_mem Key.k hky)
    have hkeepr : ∀ ky ∈ inorder r, keyLt k.k ky.k := fun ky hky =>
      hr ky.k (List.mem_map_of_mem Key.k hky)
    cases hc : compareBytes k.k x with
    | gt =>
      have hx : keyLt x k.k := keyLt_of_gt hc
      simp [greaterThan, hc, inorder_node, List.filter_append, ihl bl,
        ihr br, hx]
    | lt =>
      have hmid : ¬ keyLt x k.k := keyLt_asymm hc
      have hnil : (inorder l).filter (fun ky => decide (keyLt x ky.k)) = [] :=
        List.filter_eq_nil_iff.mpr fun ky hky => by
          simp [keyLt_asymm (keyLt_trans (hkeepl ky hky) hc)]
      simp [greaterThan, hc, inorder_node, List.filter_append, ihr br,
        hnil, hmid]
    | eq =>
      have hk : k.k = x := compareBytes_eq_iff.mp hc
      have hmid : ¬ keyLt x k.k := hk ▸ keyLt_irrefl k.k
      have hnil : (inorder l).filter (fun ky => decide (keyLt x ky.k)) = [] :=
        List.filter_eq_nil_iff.mpr fun ky hky => by
          simp [keyLt_asymm (hk ▸ hkeepl ky hky)]
      simp [greaterThan, hc, inorder_node, List.filter_append, ihr br,
        hnil, hmid]

/-- On a BST, `rangeKeys` returns, in order, exactly the records whose key
lies in the inclusive range `[lo, hi]`. -/
theorem range_spec {t : Tree} (lo hi : List Nat) (h : IsBST t) :
    rangeKeys t lo hi = (inorder t).filter
      (fun ky => decide (¬ keyLt ky.k lo ∧ ¬ keyLt hi ky.k)) := by
  induction t with
  | nil => rfl
  | node k l r ihl ihr =>
    obtain ⟨hl, hr, bl, br⟩ := isBST_node_iff.mp h
    have hkeepl : ∀ ky ∈ inorder l, keyLt ky.k k.k := fun ky hky =>
      hl ky.k (List.mem_map_of_mem Key.k hky)
    have hkeepr : ∀ ky ∈ inorder r, keyLt k.k ky.k := fun ky hky =>
      hr ky.k (List.mem_map_of_mem Key.k hky)
    have hleft : (if compareBytes k.k lo = Ordering.gt
        then rangeKeys l lo hi else [])
        = (inorder l).filter
          (fun ky => decide (¬ keyLt ky.k lo ∧ ¬ keyLt hi ky.k)) := by
      cases hcl : compareBytes k.k lo with
      | gt => rw [if_pos rfl]; exact ihl bl
      | lt =>
        rw [if_neg (by simp [hcl])]
        refine (List.filter_eq_nil_iff.mpr ?_).symm
        intro ky hky
        simp [keyLt_trans (hkeepl ky hky) hcl]
      | eq =>
        have hk : k.k = lo := compareBytes_eq_iff.mp hcl
        rw [if_neg (by simp [hcl])]
        refine (List.filter_eq_nil_iff.mpr ?_).symm
        intro ky hky
        simp [hk ▸ hkeepl ky hky]
    have hright : (if compareBytes k.k hi = Ordering.lt
        then rangeKeys r lo hi else [])
        = (inorder r).filter
          (fun ky => decide (¬ keyLt ky.k lo ∧ ¬ keyLt hi ky.k)) := by
      cases hch : compareBytes k.k hi with
      | lt => rw [if_pos rfl]; exact ihr br
      | gt =>
        have hx : keyLt hi k.k := keyLt_of_gt hch
        rw [if_neg (by simp [hch])]
        refine (List.filter_eq_nil_iff.mpr ?_).symm
        intro ky hky
        simp [keyLt_trans hx (hkeepr ky hky)]
      | eq =>
        have hk : k.k = hi := compareBytes_eq_iff.mp hch
        rw [if_neg (by simp [hch])]
        refine (List.filter_eq_nil_iff.mpr ?_).symm
        intro ky hky
        simp [hk ▸ hkeepr ky hky]
    have hCS : (compareBytes k.k lo ≠ Ordering.lt ∧
        compareBytes k.k hi ≠ Ordering.gt) ↔
        (¬ keyLt k.k lo ∧ ¬ keyLt hi k.k) :=
      and_congr Iff.rfl (not_congr compareBytes_gt_iff)
    have hmid : (if compareBytes k.k lo ≠ Ordering.lt ∧
        compareBytes k.k hi ≠ Ordering.gt then [k] else [])
        = List.filter
          (fun ky => decide (¬ keyLt ky.k lo ∧ ¬ keyLt hi ky.k)) [k] := by
      by_cases hv : ¬ keyLt k.k lo ∧ ¬ keyLt hi k.k
      · rw [if_pos (hCS.mpr hv)]
        simp [hv.1, hv.2]
      · rw [if_neg fun hcnd => hv (hCS.mp hcnd)]
        simp only [List.filter_cons, List.filter_nil]
        rw [decide_eq_false hv]
        simp
    rw [rangeKeys, inorder_node]
    simp only [List.filter_append]
    rw [hleft, hmid, hright]

/-- On a BST, `greaterThanEq` returns a permutation of the records whose key
is greater than or equal to the argument (the emission order puts a node
before its left subtree, so only the multiset is characterized). -/
theorem greaterThanEq_perm {t : Tree} (x : List Nat) (h : IsBST t) :
    List.Perm (greaterThanEq t x)
      ((inorder t).filter (fun ky => decide (¬ keyLt ky.k x))) := by
  induction t with
  | nil => exact List.Perm.refl []
  | node k l r ihl ihr =>
    obtain ⟨hl, hr, bl, br⟩ := isBST_node_iff.mp h
    have hkeepl : ∀ ky ∈ inorder l, keyLt ky.k k.k := fun ky hky =>
      hl ky.k (List.mem_map_of_mem Key.k hky)
    cases hc : compareBytes k.k x with
    | lt =>
      have hkx : keyLt k.k x := hc
      have hnil : (inorder l).filter (fun ky => decide (¬ keyLt ky.k x)) = [] :=
        List.filter_eq_nil_iff.mpr fun ky hky => by
          simp [keyLt_trans (hkeepl ky hky) hc]
      have hmid : List.filter (fun ky => decide (¬ keyLt ky.k x)) [k] = [] := by
        simp [hkx]
      rw [show greaterThanEq (Tree.node k l r) x = greaterThanEq r x from by
        simp [greaterThanEq, hc], inorder_node]
      simp only [List.filter_append, hnil, hmid, List.nil_append]
      exact ihr br
    | eq =>
      have hq : ¬ keyLt k.k x := fun hlt =>
        keyLt_irrefl k.k ((compareBytes_eq_iff.mp hc) ▸ hlt)
      have hq' : compareBytes k.k x ≠ Ordering.lt := by simp [hc]
      rw [show greaterThanEq (Tree.node k l r) x =
          [k] ++ greaterThanEq l x ++ greaterThanEq r x from by
        simp [greaterThanEq, hq'], inorder_node]
      simp only [List.filter_append]
      have hmid : List.filter (fun ky => decide (¬ keyLt ky.k x)) [k] = [k] := by
        simp [hq]
      rw [hmid]
      have hstep : List.Perm (k :: (greaterThanEq l x ++ greaterThanEq r x))
          ((inorder l).filter (fun ky => decide (¬ keyLt ky.k x)) ++
            k :: (inorder r).filter (fun ky => decide (¬ keyLt ky.k x))) :=
        (List.Perm.cons k ((ihl bl).append (ihr br))).trans
          List.perm_middle.symm
      simpa using hstep
    | gt =>
      have hq : ¬ keyLt k.k x := keyLt_asymm (keyLt_of_gt hc)
      have hq' : compareBytes k.k x ≠ Ordering.lt := by simp [hc]
      rw [show greaterThanEq (Tree.node k l r) x =
          [k] ++ greaterThanEq l x ++ greaterThanEq r x from by
        simp [greaterThanEq, hq'], inorder_node]
      simp only [List.filter_append]
      have hmid : List.filter (fun ky => decide (¬ keyLt ky.k x)) [k] = [k] := by
        simp [hq]
      rw [hmid]
      have hstep : List.Perm (k :: (greaterThanEq l x ++ greaterThanEq r x))
          ((inorder l).filter (fun ky => decide (¬ keyLt ky.k x)) ++
            k :: (inorder r).filter (fun ky => decide (¬ keyLt ky.k x))) :=
        (List.Perm.cons k ((ihl bl).append (ihr br))).trans
          List.perm_middle.symm
      simpa using hstep

/-- On a BST, `lessThan` returns a permutation of the records whose key is
strictly less than the argument. -/
theorem lessThan_perm {t : Tree} (x : List Nat) (h : IsBST t) :
    List.Perm (lessThan t x)
      ((inorder t).filter (fun ky => decide (keyLt ky.k x))) := by
  induction t with
  | nil => exact List.Perm.refl []
  | node k l r ihl ihr =>
    obtain ⟨hl, hr, bl, br⟩ := isBST_node_iff.mp h
    have hkeepr : ∀ ky ∈ inorder r, keyLt k.k ky.k := fun ky hky =>
      hr ky.k (List.mem_map_of_mem Key.k hky)
    cases hc : compareBytes k.k x with
    | lt =>
      have hkx : keyLt k.k x := hc
      rw [show lessThan (Tree.node k l r) x =
          [k] ++ lessThan l x ++ lessThan r x from by
        simp [lessThan, hc], inorder_node]
      simp only [List.filter_append]
      have hmid : List.filter (fun ky => decide (keyLt ky.k x)) [k] = [k] := by
        simp [hkx]
      rw [hmid]
      have hstep : List.Perm (k :: (lessThan l x ++ lessThan r x))
          ((inorder l).filter (fun ky => decide (keyLt ky.k x)) ++
            k :: (inorder r).filter (fun ky => decide (keyLt ky.k x))) :=
        (List.Perm.cons k ((ihl bl).append (ihr br))).trans
          List.perm_middle.symm
      simpa using hstep
    | eq =>
      have hk : k.k = x := compareBytes_eq_iff.mp hc
      have hq : ¬ keyLt k.k x := hk ▸ keyLt_irrefl k.k
      have hmid : List.filter (fun ky => decide (keyLt ky.k x)) [k] = [] := by
        simp [hq]
      have hnil : (inorder r).filter (fun ky => decide (keyLt ky.k x)) = [] :=
        List.filter_eq_nil_iff.mpr fun ky hky => by
          simp [keyLt_asymm (hk ▸ hkeepr ky hky)]
      rw [show lessThan (Tree.node k l r) x = lessThan l x from by
        simp [lessThan, hc], inorder_node]
      simp only [List.filter_append, hmid, hnil, List.append_nil]
      exact ihl bl
    | gt =>
      have hx : keyLt x k.k := keyLt_of_gt hc
      have hmid : List.filter (fun ky => decide (keyLt ky.k x)) [k] = [] := by
        simp [keyLt_asymm hx]
      have hnil : (inorder r).filter (fun ky => decide (keyLt ky.k x)) = [] :=
        List.filter_eq_nil_iff.mpr fun ky hky => by
          simp [keyLt_asymm (keyLt_trans hx (hkeepr ky hky))]
      rw [show lessThan (Tree.node k l r) x = lessThan l x from by
        simp [lessThan, hc], inorder_node]
      simp only [List.filter_append, hmid, hnil, List.append_nil]
      exact ihl bl

/-- On a BST, `lessThanEq` returns a permutation of the records whose key is
less than or equal to the argument. -/
theorem lessThanEq_perm {t : Tree} (x : List Nat) (h : IsBST t) :
    List.Perm (lessThanEq t x)
      ((inorder t).filter (fun ky => decide (¬ keyLt x ky.k))) := by
  induction t with
  | nil => exact List.Perm.refl []
  | node k l r ihl ihr =>
    obtain ⟨hl, hr, bl, br⟩ := isBST_node_iff.mp h
    have hkeepr : ∀ ky ∈ inorder r, keyLt k.k ky.k := fun ky hky =>
      hr ky.k (List.mem_map_of_mem Key.k hky)
    cases hc : compareBytes k.k x with
    | gt =>
      have hx : keyLt x k.k := keyLt_of_gt hc
      have hmid : List.filter (fun ky => decide (¬ keyLt x ky.k)) [k] = [] := by
        simp [hx]
      have hnil : (inorder r).filter (fun ky => decide (¬ keyLt x ky.k)) = [] :=
        List.filter_eq_nil_iff.mpr fun ky hky => by
          simp [keyLt_trans hx (hkeepr ky hky)]
      rw [show lessThanEq (Tree.node k l r) x = lessThanEq l x from by
        simp [lessThanEq, hc], inorder_node]
      simp only [List.filter_append, hmid, hnil, List.append_nil]
      exact ihl bl
    | lt =>
      have hq : ¬ keyLt x k.k := keyLt_asymm hc
      have hq' : compareBytes k.k x ≠ Ordering.gt := by simp [hc]
      rw [show lessThanEq (Tree.node k l r) x =
          [k] ++ lessThanEq l x ++ lessThanEq r x from by
        simp [lessThanEq, hq'], inorder_node]
      simp only [List.filter_append]
      have hmid : List.filter (fun ky => decide (¬ keyLt x ky.k)) [k] = [k] := by
        simp [hq]
      rw [hmid]
      have hstep : List.Perm (k :: (lessThanEq l x ++ lessThanEq r x))
          ((inorder l).filter (fun ky => decide (¬ keyLt x ky.k)) ++
            k :: (inorder r).filter (fun ky => decide (¬ keyLt x ky.k))) :=
        (List.Perm.cons k ((ihl bl).append (ihr br))).trans
          List.perm_middle.symm
      simpa using hstep
    | eq =>
      have hk : k.k = x := compareBytes_eq_iff.mp hc
      have hq : ¬ keyLt x k.k := hk ▸ keyLt_irrefl k.k
      have hq' : compareBytes k.k x ≠ Ordering.gt := by simp [hc]
      rw [show lessThanEq (Tree.node k l r) x =
          [k] ++ lessThanEq l x ++ lessThanEq r x from by
        simp [lessThanEq, hq'], inorder_node]
      simp only [List.filter_append]
      have hmid : List.filter (fun ky => decide (¬ keyLt x ky.k)) [k] = [k] := by
        simp [hq]
      rw [hmid]
      have hstep : List.Perm (k :: (lessThanEq l x ++ lessThanEq r x))
          ((inorder l).filter (fun ky => decide (¬ keyLt x ky.k)) ++
            k :: (inorder r).filter (fun ky => decide (¬ keyLt x ky.k))) :=
        (List.Perm.cons k ((ihl bl).append (ihr br))).trans
          List.perm_middle.symm
      simpa using hstep

/-- Two-node sample tree: root key [98] with left child [97]. -/
def tBA : Tree := put (put Tree.nil [98] [1]) [97] [2]

/-- Three-node sample tree: root [50] with children [30] and [70]. -/
def tBal : Tree := put (put (put Tree.nil [50] [5]) [30] [3]) [70] [7]

/-- C1: the spec says GreaterThanEq, LessThan and LessThanEq (like Range,
GreaterThan and NGet) emit strictly in order (left, self, right), hence
ascending.  The code appends the node BEFORE recursing into its left
subtree in those three scans: on the tree with root key [98] and left
child [97] each emits [98] before [97], an output that is not ascending. -/
theorem scans_not_inorder :
    (lessThan tBA [99]).map Key.k = [[98], [97]] ∧
    (greaterThanEq tBA [97]).map Key.k = [[98], [97]] ∧
    (lessThanEq tBA [98]).map Key.k = [[98], [97]] ∧
    ¬ List.Sorted keyLt [[98], [97]] := by
  refine ⟨by decide, by decide, by decide, ?_⟩
  intro h
  have h1 : keyLt [98] [97] :=
    (List.pairwise_cons.mp h).1 [97] (List.mem_singleton.mpr rfl)
  exact absurd h1 (by decide)

/-- C2: every sequence of Put, Delete and Remove calls starting from the
empty tree yields a tree satisfying the BST structural invariant, whose
in-order key traversal is strictly ascending with no duplicates. -/
theorem ops_preserve_bst (ops : List Op) :
    IsBST (applyOps ops) ∧ List.Sorted keyLt (kList (applyOps ops)) ∧
      (kList (applyOps ops)).Nodup := by
  have h := applyOps_isBST ops
  exact ⟨h, isBST_sorted h, isBST_nodup h⟩

/-- C3: Put makes the key present with the new value appended to its previous
value list (never failing, being a total function), and on a fresh key two
Puts followed by Get yield exactly the two values in insertion order. -/
theorem put_appends_value (t : Tree) (key v v1 v2 : List Nat) :
    get (put t key v) key =
      some (Key.mk key (optValues (get t key) ++ [v])) ∧
    (get t key = none →
      get (put (put t key v1) key v2) key = some (Key.mk key [v1, v2])) := by
  refine ⟨get_put_self t key v, ?_⟩
  intro hnone
  rw [get_put_self, get_put_self, hnone]
  simp [optValues]

/-- C3 witness: two Puts of values [1] then [2] under key [5] on the empty
tree make Get return exactly those two values in order. -/
theorem put_appends_value_witness :
    get Tree.nil ([5] : List Nat) = none ∧
      get (put (put Tree.nil [5] [1]) [5] [2]) [5] =
        some (Key.mk [5] [[1], [2]]) :=
  ⟨rfl, (put_appends_value Tree.nil [5] [0] [1] [2]).2 rfl⟩

/-- C4: on a BST, Delete removes exactly the requested key (afterwards Get
reports not found), leaves the lookup of every other key unchanged, is a
no-op when the key is absent, and on a two-child node replaces the node key
by the in-order successor key (the head of the right subtree's in-order
traversal, as computed by the minValueNode walk) and deletes that successor
from the right subtree. -/
theorem delete_removes_key {t : Tree} (key : List Nat) (h : IsBST t) :
    get (delete t key) key = none ∧
    (∀ key', key' ≠ key → get (delete t key) key' = get t key') ∧
    (key ∉ kList t → delete t key = t) ∧
    (∀ k lk rk : Key, ∀ ll lr rl rr : Tree,
      compareBytes key k.k = Ordering.eq →
      delete (Tree.node k (Tree.node lk ll lr) (Tree.node rk rl rr)) key =
        Tree.node (minKey rk rl) (Tree.node lk ll lr)
          (delete (Tree.node rk rl rr) (minKey rk rl).k) ∧
      (inorder (Tree.node rk rl rr)).head? = some (minKey rk rl)) := by
  refine ⟨get_delete_self key h, fun key' hne => get_delete_other h hne,
    fun habs => delete_of_not_mem habs, ?_⟩
  intro k lk rk ll lr rl rr hc
  refine ⟨delete_node_eq_two hc, ?_⟩
  obtain ⟨rest, hrest⟩ := inorder_node_head rk rl rr
  rw [hrest]
  rfl

/-- C4 witness: deleting the two-child root [50] of the three-node sample
tree makes it unreachable, keeps key [30] intact, and deleting the absent
key [99] changes nothing. -/
theorem delete_removes_key_witness :
    IsBST tBal ∧ get (delete tBal [50]) [50] = none ∧
      get (delete tBal [50]) [30] = get tBal [30] ∧
      delete tBal [99] = tBal := by
  refine ⟨by decide, (delete_removes_key [50] (by decide)).1, ?_, ?_⟩
  · exact (delete_removes_key [50] (by decide)).2.1 [30] (by decide)
  · exact (delete_removes_key [99] (by decide)).2.2.1 (by decide)

/-- C5: on a BST each scan returns exactly the qualifying records: Range the
keys in the inclusive range [lo, hi] (and the empty sequence when nothing
overlaps), GreaterThan the keys strictly greater, NGet every key but the
argument (those three in order), and GreaterThanEq, LessThan and LessThanEq
a permutation of the keys satisfying >=, < and <= respectively. -/
theorem scans_return_exact {t : Tree} (lo hi x : List Nat) (h : IsBST t) :
    rangeKeys t lo hi = (inorder t).filter
      (fun ky => decide (¬ keyLt ky.k lo ∧ ¬ keyLt hi ky.k)) ∧
    greaterThan t x = (inorder t).filter
      (fun ky => decide (keyLt x ky.k)) ∧
    nGet t x = (inorder t).filter (fun ky => decide (ky.k ≠ x)) ∧
    List.Perm (greaterThanEq t x)
      ((inorder t).filter (fun ky => decide (¬ keyLt ky.k x))) ∧
    List.Perm (lessThan t x)
      ((inorder t).filter (fun ky => decide (keyLt ky.k x))) ∧
    List.Perm (lessThanEq t x)
      ((inorder t).filter (fun ky => decide (¬ keyLt x ky.k))) ∧
    ((∀ ky ∈ inorder t, ¬ (¬ keyLt ky.k lo ∧ ¬ keyLt hi ky.k)) →
      rangeKeys t lo hi = []) := by
  refine ⟨range_spec lo hi h, greaterThan_spec x h, nGet_spec t x,
    greaterThanEq_perm x h, lessThan_perm x h, lessThanEq_perm x h, ?_⟩
  intro hnone
  rw [range_spec lo hi h]
  exact List.filter_eq_nil_iff.mpr fun ky hky => by simp [hnone ky hky]

/-- C5 witness: on the three-node sample tree, Range over [30, 70] keeps all
records in order and a disjoint range returns the empty sequence. -/
theorem scans_return_exact_witness :
    IsBST tBal ∧
      rangeKeys tBal [30] [70] = (inorder tBal).filter
        (fun ky => decide (¬ keyLt ky.k [30] ∧ ¬ keyLt [70] ky.k)) ∧
      rangeKeys tBal [1] [2] = [] := by
  refine ⟨by decide, (scans_return_exact [30] [70] [50] (by decide)).1, ?_⟩
  exact (scans_return_exact [1] [2] [50] (by decide)).2.2.2.2.2.2 (by decide)

/-- C6: Remove rewrites exactly the matched key's value list by dropping the
first byte-equal occurrence of the value (later duplicates and the relative
order of the rest survive), leaves all other keys' lookups unchanged, and is
a no-op when the key is absent or the value does not occur. -/
theorem remove_drops_first_value (t : Tree) (key v : List Nat)
    (xs ys vs : List (List Nat)) :
    get (remove t key v) key =
      (get t key).map (fun ky => Key.mk ky.k (removeFirstValue ky.values v)) ∧
    (∀ key', key' ≠ key → get (remove t key v) key' = get t key') ∧
    (v ∉ xs → removeFirstValue (xs ++ v :: ys) v = xs ++ ys) ∧
    (v ∉ vs → removeFirstValue vs v = vs) ∧
    (key ∉ kList t → remove t key v = t) ∧
    (∀ ky : Key, get t key = some ky → v ∉ ky.values →
      remove t key v = t) := by
  refine ⟨get_remove_self t key v, fun key' hne => get_remove_other hne t v,
    fun hxs => removeFirstValue_append ys hxs,
    fun hvs => removeFirstValue_of_not_mem hvs,
    fun habs => remove_of_not_mem v habs,
    fun ky hget hv => remove_of_value_not_mem hget hv⟩

/-- C6 witness: putting values a=[1], b=[2], c=[3] under one key and removing
b leaves values [a, c]; the splice lemma instance drops only the first b. -/
theorem remove_drops_first_value_witness :
    get (remove (put (put (put Tree.nil [9] [1]) [9] [2]) [9] [3]) [9] [2]) [9]
        = some (Key.mk [9] [[1], [3]]) ∧
      removeFirstValue ([[1]] ++ [2] :: [[2], [3]]) [2] = [[1]] ++ [[2], [3]] := by
  constructor
  · rw [(remove_drops_first_value (put (put (put Tree.nil [9] [1]) [9] [2])
      [9] [3]) [9] [2] [] [] []).1]
    decide
  · exact (remove_drops_first_value Tree.nil [9] [2] [[1]] [[2], [3]] []).2.2.1
      (by decide)

/-- C7: on a BST, Get returns the tree's record whose sort key is byte-equal
to the argument when such a key is present, and the "not found" result
`none` when it is absent, in particular on the empty tree. -/
theorem get_found_or_not {t : Tree} (key : List Nat) (h : IsBST t) :
    (key ∈ kList t → ∃ ky ∈ inorder t, get t key = some ky ∧ ky.k = key) ∧
    (key ∉ kList t → get t key = none) ∧
    get Tree.nil key = none := by
  exact ⟨fun hm => get_some_spec h hm, fun hm => get_none_of_not_mem hm, rfl⟩

/-- C7 witness: in the three-node sample tree key [30] is found with its
record and key [99] is not found. -/
theorem get_found_or_not_witness :
    IsBST tBal ∧
      (∃ ky ∈ inorder tBal, get tBal [30] = some ky ∧ ky.k = [30]) ∧
      get tBal [99] = none := by
  refine ⟨by decide, ?_, ?_⟩
  · exact (get_found_or_not [30] (by decide)).1 (by decide)
  · exact (get_found_or_not [99] (by decide)).2.1 (by decide)

/-- C8: Delete of an absent key and Remove of an absent key or absent value
return a tree equal to the original, so every lookup and every scan of the
result coincides with the original's. -/
theorem absent_ops_noop (t : Tree) (key v : List Nat) :
    (key ∉ kList t → delete t key = t) ∧
    (key ∉ kList t → remove t key v = t) ∧
    (∀ ky : Key, get t key = some ky → v ∉ ky.values →
      remove t key v = t) := by
  exact ⟨fun h => delete_of_not_mem h, fun h => remove_of_not_mem v h,
    fun ky hget hv => remove_of_value_not_mem hget hv⟩

/-- C8 witness: on the three-node sample tree, deleting absent key [99],
removing under absent key [99], and removing the absent value [9] from key
[50] all return the tree unchanged. -/
theorem absent_ops_noop_witness :
    delete tBal [99] = tBal ∧ remove tBal [99] [9] = tBal ∧
      remove tBal [50] [9] = tBal := by
  refine ⟨(absent_ops_noop tBal [99] [9]).1 (by decide),
    (absent_ops_noop tBal [99] [9]).2.1 (by decide),
    (absent_ops_noop tBal [50] [9]).2.2 (Key.mk [50] [[5]]) (by decide)
      (by decide)⟩

/-- C9: in sequential execution every embedded operation is a total function
(all recursions are structural over the finite tree), and the Put retry loop
stops within its first iteration because the uncontended CAS succeeds: one
unit of fuel always suffices and the helper always reports success. -/
theorem sequential_put_terminates (t : Tree) (key v : List Nat) :
    putLoop 1 t key v = some (put t key v) ∧ (putB t key v).2 = true :=
  ⟨putLoop_one t key v, putB_true t key v⟩

/-- C10: inserting a value under a key already present in a BST changes no
tree links: stripping every value list yields identical trees (same nodes,
same keys, same left/right structure), while the matched key's value list
gains exactly the appended value and every other lookup is untouched. -/
theorem put_existing_key_frame {t : Tree} {key : List Nat} (v : List Nat)
    (h : IsBST t) (hm : key ∈ kList t) :
    stripValues (put t key v) = stripValues t ∧
    get (put t key v) key =
      some (Key.mk key (optValues (get t key) ++ [v])) ∧
    (∀ key', key' ≠ key → get (put t key v) key' = get t key') := by
  exact ⟨stripValues_put v h hm, get_put_self t key v,
    fun key' hne => get_put_other hne t v⟩

/-- C10 witness: appending value [8] under the existing key [30] of the
three-node sample tree leaves the stripped tree identical. -/
theorem put_existing_key_frame_witness :
    IsBST tBal ∧ [30] ∈ kList tBal ∧
      stripValues (put tBal [30] [8]) = stripValues tBal := by
  exact ⟨by decide, by decide,
    (put_existing_key_frame [8] (by decide) (by decide)).1⟩

end BstSpec
